import Mathlib

/-!
# Verification of the glyphwork animation / particle core

A shallow embedding of `src/glyphwork/animation.py` and
`src/glyphwork/particles.py`, together with proofs of the spec's testable
properties.

Modelling conventions:
* Python `float` arithmetic is modelled by exact rationals (`ℚ`).  Every
  concrete scenario below only involves values on which IEEE double
  arithmetic is exact as well (`0.3 * 10 == 3.0`, dyadic constants, the
  bounce-curve endpoints), so the verdicts transfer.
* Python `str` values are modelled as `List Char`; `s[0]` and truthiness
  (`if s`) become head access and emptiness tests.
* 2D cell grids (`Buffer.cells`, the terminal emulator screen) are modelled
  as total functions `ℤ → ℤ → Char`; in-place mutation becomes pointwise
  functional update guarded by the same bounds checks as the source.
* The stream of bytes a `DiffRenderer` emits is modelled as a list of the
  four syntactic elements it is built from (cursor-home, 1-indexed
  cursor-position escape, newline, plain character).
-/

namespace Glyphwork

/-- Source `core.clamp(value, min_val, max_val) = max(min_val, min(max_val, value))`. -/
def clamp (value min_val max_val : ℚ) : ℚ :=
  max min_val (min max_val value)

/-- Integer `clamp` (the same expression applied to Python ints). -/
def clampInt (value min_val max_val : ℤ) : ℤ :=
  max min_val (min max_val value)

/-- Python `int(f)` on a float: truncation toward zero. -/
def pyTrunc (q : ℚ) : ℤ :=
  if q < 0 then -⌊-q⌋ else ⌊q⌋

/-- Python `ch[0] if ch else " "` (first character, space for the empty string). -/
def firstChar (ch : List Char) : Char :=
  match ch with
  | [] => ' '
  | c :: _ => c

/-! ## Particle (`particles.py`, class `Particle`) -/

/-- Source `Particle`: mutable dataclass of `particles.py`.  `color_data` is never
read by the modelled operations and is omitted. -/
structure Particle where
  x : ℚ
  y : ℚ
  vx : ℚ := 0
  vy : ℚ := 0
  lifetime : ℚ := 1
  max_lifetime : ℚ := 1
  char : List Char := ['*']
  char_sequence : Option (List Char) := none
  gravity_scale : ℚ := 1
  drag : ℚ := 1
  fade : Bool := true

/-- Source `Particle.__post_init__`: if `max_lifetime <= 0` it is replaced by
`lifetime`. -/
def Particle.postInit (p : Particle) : Particle :=
  if p.max_lifetime ≤ 0 then { p with max_lifetime := p.lifetime } else p

/-- Source `Particle.alive` property: `lifetime > 0`. -/
def Particle.alive (p : Particle) : Bool :=
  p.lifetime > 0

/-- Source `Particle.life_ratio` property: `clamp(lifetime / max_lifetime, 0, 1)`,
with an early `0.0` when `max_lifetime <= 0`. -/
def Particle.life_ratio (p : Particle) : ℚ :=
  if p.max_lifetime ≤ 0 then 0
  else clamp (p.lifetime / p.max_lifetime) 0 1

/-- Python truthiness of the optional string `char_sequence`: `None` and the
empty string are falsy. -/
def seqTruthy (s : Option (List Char)) : Bool :=
  match s with
  | none => false
  | some l => !l.isEmpty

/-- Source `Particle.get_char`:
```python
if self.char_sequence and self.fade:
    idx = int((1 - self.life_ratio) * (len(self.char_sequence) - 1))
    idx = clamp(idx, 0, len(self.char_sequence) - 1)
    return self.char_sequence[int(idx)]
return self.char
```
The result is the selected character as a 1-character string, or the stored
`char` string.  (The clamp keeps the index inside the sequence, so the
`getD` default is never used.) -/
def Particle.get_char (p : Particle) : List Char :=
  if seqTruthy p.char_sequence && p.fade then
    let seq := p.char_sequence.getD []
    let idx : ℤ := pyTrunc ((1 - p.life_ratio) * ((seq.length : ℚ) - 1))
    let idx2 : ℤ := clampInt idx 0 ((seq.length : ℤ) - 1)
    [seq.getD idx2.toNat ' ']
  else p.char

/-- Modelled from the spec (§4.7 / claim C3): `get_char` with the index
computed as `clamp(round((1 − lifetime/max_lifetime)·(len(seq)−1)), 0,
len(seq)−1)`. -/
def Particle.getCharSpecRound (p : Particle) : List Char :=
  if seqTruthy p.char_sequence && p.fade then
    let seq := p.char_sequence.getD []
    let idx : ℤ := round ((1 - p.lifetime / p.max_lifetime) * ((seq.length : ℚ) - 1))
    let idx2 : ℤ := clampInt idx 0 ((seq.length : ℤ) - 1)
    [seq.getD idx2.toNat ' ']
  else p.char

/-- The amended spec formula for C3: as `getCharSpecRound` but with `round`
replaced by truncation toward zero (Python `int()`), which is what the code
computes. -/
def Particle.getCharSpecTrunc (p : Particle) : List Char :=
  if seqTruthy p.char_sequence && p.fade then
    let seq := p.char_sequence.getD []
    let idx : ℤ := pyTrunc ((1 - p.lifetime / p.max_lifetime) * ((seq.length : ℚ) - 1))
    let idx2 : ℤ := clampInt idx 0 ((seq.length : ℤ) - 1)
    [seq.getD idx2.toNat ' ']
  else p.char

/-- Source `Particle.update(dt, gravity)`: gravity, then drag, then position, then
lifetime, in the source's statement order. -/
def Particle.update (p : Particle) (dt gravity : ℚ) : Particle :=
  let vy1 := p.vy + gravity * p.gravity_scale * dt
  let vx2 := p.vx * p.drag
  let vy2 := vy1 * p.drag
  let x2 := p.x + vx2 * dt
  let y2 := p.y + vy2 * dt
  { p with vx := vx2, vy := vy2, x := x2, y := y2, lifetime := p.lifetime - dt }

/-! ## ParticleEmitter (`particles.py`, class `ParticleEmitter`)

`spawn_particle` draws random angle/speed/lifetime; the claims about the
emitter only concern *how many* particles `update` returns and the
accumulator state, so `update` is modelled as returning the spawn count
(the random payload of each spawned particle is irrelevant to, and
independent of, the count). -/

/-- Source `ParticleEmitter` dataclass.  Fields not read by the modelled `update`
(position, spread, speeds, lifetimes, chars, …) are kept so that claim C10's
"every other emitter field unchanged" is meaningful. -/
structure ParticleEmitter where
  x : ℚ := 0
  y : ℚ := 0
  spawn_rate : ℚ := 10
  spread : ℚ
  direction : ℚ
  speed_min : ℚ := 5
  speed_max : ℚ := 15
  lifetime_min : ℚ := 1/2
  lifetime_max : ℚ := 2
  char : List Char := ['*']
  char_sequence : Option (List Char) := none
  gravity_scale : ℚ := 1
  drag : ℚ := 49/50
  fade : Bool := true
  burst_count : ℤ := 0
  active : Bool := true
  spawn_accumulator : ℚ := 0

/-- The `while self._spawn_accumulator >= 1.0` loop of
`ParticleEmitter.update`: returns the number of iterations (particles
spawned) and the accumulator left. -/
def spawnLoop (acc : ℚ) : ℕ × ℚ :=
  if 1 ≤ acc then
    let r := spawnLoop (acc - 1)
    (r.1 + 1, r.2)
  else (0, acc)
termination_by ⌊acc⌋.toNat
decreasing_by
  have h1 : (1 : ℤ) ≤ ⌊acc⌋ := by
    exact_mod_cast Int.le_floor.mpr (by exact_mod_cast ‹1 ≤ acc›)
  have h2 : ⌊acc - (1 : ℚ)⌋ = ⌊acc⌋ - 1 := by
    simp [Int.floor_sub_int acc 1]
  omega

/-- Source `ParticleEmitter.update(dt)`: returns the spawn count and the updated
emitter.  Inactive or non-positive-rate emitters return immediately. -/
def ParticleEmitter.update (e : ParticleEmitter) (dt : ℚ) : ℕ × ParticleEmitter :=
  if !e.active || e.spawn_rate ≤ 0 then (0, e)
  else
    let acc := e.spawn_accumulator + dt * e.spawn_rate
    let r := spawnLoop acc
    (r.1, { e with spawn_accumulator := r.2 })

/-- A sequence of `update` calls on one emitter; returns the total spawn
count and the final emitter state. -/
def updateRuns (e : ParticleEmitter) : List ℚ → ℕ × ParticleEmitter
  | [] => (0, e)
  | dt :: rest =>
      let r := e.update dt
      let rr := updateRuns r.2 rest
      (r.1 + rr.1, rr.2)

/-! ## ParticleCanvas (`particles.py`, class `ParticleCanvas`)

Only the state read by `update_particles` / `_particle_alive` is modelled;
the inherited animation machinery is not involved in claim C8.  The
emitters' freshly spawned particles for the tick are abstracted as an input
list (they are random in the source; C8 holds for every value of them). -/

structure ParticleCanvas where
  width : ℕ := 80
  height : ℕ := 24
  gravity : ℚ := 20
  max_particles : ℕ := 1000
  particles : List Particle := []
  kill_out_of_bounds : Bool := true
  bounds_margin : ℚ := 5

/-- Source `ParticleCanvas._particle_alive`. -/
def ParticleCanvas.particleAlive (c : ParticleCanvas) (p : Particle) : Bool :=
  if !p.alive then false
  else if c.kill_out_of_bounds &&
      (p.x < -c.bounds_margin || p.x ≥ (c.width : ℚ) + c.bounds_margin ||
       p.y < -c.bounds_margin || p.y ≥ (c.height : ℚ) + c.bounds_margin) then
    false
  else true

/-- Python `l[-m:]` for a nonnegative `m`: the last `m` elements — except
that `m = 0` yields `l[0:]`, the whole list. -/
def pySliceLast (m : ℕ) (l : List α) : List α :=
  if m = 0 then l else l.drop (l.length - m)

/-- Source `ParticleCanvas.update_particles(dt)` with the emitters' random output
for this tick abstracted as `spawned`: extend, physics-update every
particle, filter by `_particle_alive`, then truncate with
`particles[-max_particles:]` when the count exceeds `max_particles`. -/
def ParticleCanvas.updateParticles (c : ParticleCanvas) (dt : ℚ)
    (spawned : List Particle) : ParticleCanvas :=
  let ps1 := c.particles ++ spawned
  let ps2 := ps1.map (fun p => p.update dt c.gravity)
  let ps3 := ps2.filter c.particleAlive
  let ps4 := if ps3.length > c.max_particles then pySliceLast c.max_particles ps3 else ps3
  { c with particles := ps4 }

/-! ## Easing functions (`animation.py`) -/

/-- Source `linear(t) = t`. -/
def linear (t : ℚ) : ℚ := t

/-- Source `ease_in(t) = t*t`. -/
def ease_in (t : ℚ) : ℚ := t * t

/-- Source `ease_out(t) = t*(2-t)`. -/
def ease_out (t : ℚ) : ℚ := t * (2 - t)

/-- Source `ease_in_out`. -/
def ease_in_out (t : ℚ) : ℚ :=
  if t < 1/2 then 2 * t * t else -1 + (4 - 2 * t) * t

/-- Source `ease_in_cubic(t) = t*t*t`. -/
def ease_in_cubic (t : ℚ) : ℚ := t * t * t

/-- Source `ease_out_cubic(t) = 1 - (1-t)**3`. -/
def ease_out_cubic (t : ℚ) : ℚ := 1 - (1 - t) ^ 3

/-- Source `ease_in_out_cubic`. -/
def ease_in_out_cubic (t : ℚ) : ℚ :=
  if t < 1/2 then 4 * t * t * t else 1 - (-2 * t + 2) ^ 3 / 2

/-- Source `ease_out_elastic`: guards at `t == 0` and `t == 1`; otherwise
`2**(-10t) * sin((10t - 0.75) * 2π/3) + 1`, a transcendental float
expression abstracted here as `core` (the claims only touch the guards,
which hold for every `core`). -/
def ease_out_elastic (core : ℚ → ℚ) (t : ℚ) : ℚ :=
  if t = 0 then 0 else if t = 1 then 1 else core t

/-- Source `ease_out_bounce`: four-piece parabola with `n1 = 7.5625`, `d1 = 2.75`
(all constants are exact in binary floating point and in `ℚ`). -/
def ease_out_bounce (t : ℚ) : ℚ :=
  let n1 : ℚ := 7.5625
  let d1 : ℚ := 2.75
  if t < 1 / d1 then n1 * t * t
  else if t < 2 / d1 then
    let t2 := t - 1.5 / d1
    n1 * t2 * t2 + 0.75
  else if t < 2.5 / d1 then
    let t2 := t - 2.25 / d1
    n1 * t2 * t2 + 0.9375
  else
    let t2 := t - 2.625 / d1
    n1 * t2 * t2 + 0.984375

/-- The `EASING` registry dict, as an association list in the source's
insertion order; the elastic entry carries its abstracted transcendental
core. -/
def EASING (core : ℚ → ℚ) : List (String × (ℚ → ℚ)) :=
  [("linear", linear),
   ("ease_in", ease_in),
   ("ease_out", ease_out),
   ("ease_in_out", ease_in_out),
   ("ease_in_cubic", ease_in_cubic),
   ("ease_out_cubic", ease_out_cubic),
   ("ease_in_out_cubic", ease_in_out_cubic),
   ("ease_out_elastic", ease_out_elastic core),
   ("ease_out_bounce", ease_out_bounce)]

/-! ## Buffer (`animation.py`, classes `Cell` and `Buffer`)

A `Cell` holds exactly one character, so the cell grid is modelled as a
total function `ℤ → ℤ → Char` (coordinates are Python ints, which can be
negative); the in-bounds region `[0,width) × [0,height)` is the buffer's
content. -/

structure Buffer where
  width : ℕ
  height : ℕ
  cells : ℤ → ℤ → Char

/-- Source `Buffer(width, height, fill)`: every cell is `Cell(fill)`, i.e. the
first character of `fill` (space when empty). -/
def Buffer.make (width height : ℕ) (fill : List Char) : Buffer :=
  ⟨width, height, fun _ _ => firstChar fill⟩

/-- Source `Buffer.set(x, y, char)`: guarded in-place write of the first character
of `char`. -/
def Buffer.set (b : Buffer) (x y : ℤ) (char : List Char) : Buffer :=
  if 0 ≤ x ∧ x < (b.width : ℤ) ∧ 0 ≤ y ∧ y < (b.height : ℤ) then
    { b with cells := fun x' y' => if x' = x ∧ y' = y then firstChar char else b.cells x' y' }
  else b

/-- Source `Buffer.get(x, y)`: the cell character in bounds, `" "` outside. -/
def Buffer.get (b : Buffer) (x y : ℤ) : Char :=
  if 0 ≤ x ∧ x < (b.width : ℤ) ∧ 0 ≤ y ∧ y < (b.height : ℤ) then b.cells x y
  else ' '

/-- Source `Buffer.copy_from(other)`: copies the region
`[0, min widths) × [0, min heights)` cell by cell; dimensions and all other
cells are untouched. -/
def Buffer.copyFrom (b other : Buffer) : Buffer :=
  { b with cells := fun x y =>
      if 0 ≤ x ∧ x < (min b.width other.width : ℕ) ∧
         0 ≤ y ∧ y < (min b.height other.height : ℕ) then other.cells x y
      else b.cells x y }

/-! ## DiffRenderer (`animation.py`, class `DiffRenderer`)

The returned string is built from exactly four syntactic elements:
`CURSOR_HOME`, `CURSOR_POS.format(row, col)` (1-indexed), the newlines of
`Buffer.render()`, and plain cell characters.  We model the output as the
list of those elements. -/

inductive Tok where
  | home
  | pos (row col : ℤ)
  | newline
  | ch (c : Char)
deriving DecidableEq

/-- Source `Buffer.render()`: rows joined with `"\n"`, no trailing newline. -/
def Buffer.renderToks (b : Buffer) : List Tok :=
  List.intercalate [Tok.newline]
    ((List.range b.height).map fun y : ℕ =>
      (List.range b.width).map fun x : ℕ => Tok.ch (b.cells (x : ℤ) (y : ℤ)))

/-- One entry of `DiffRenderer._diff`'s change list. -/
abbrev Chg := ℤ × ℤ × Char

/-- Source `DiffRenderer._diff(old, new)`: all positions of `new`'s grid whose
character differs between the two buffers (via `Buffer.get`), scanned row
by row. -/
def diffChanges (old new' : Buffer) : List Chg :=
  (List.range new'.height).flatMap fun y : ℕ =>
    (List.range new'.width).filterMap fun x : ℕ =>
      let old_char := old.get (x : ℤ) (y : ℤ)
      let new_char := new'.get (x : ℤ) (y : ℤ)
      if old_char ≠ new_char then some ((x : ℤ), (y : ℤ), new_char) else none

/-- Ordering key of `changes.sort(key=lambda c: (c[1], c[0]))`:
lexicographic on (row, column). -/
def chgLe (a b : Chg) : Bool :=
  a.2.1 < b.2.1 || (a.2.1 = b.2.1 && a.1 ≤ b.1)

/-- Stable insertion used to model Python's stable `list.sort`. -/
def insertChg (c : Chg) : List Chg → List Chg
  | [] => [c]
  | d :: t => if chgLe c d then c :: d :: t else d :: insertChg c t

/-- Stable sort of the change list by (row, column). -/
def sortChgs : List Chg → List Chg
  | [] => []
  | c :: t => insertChg c (sortChgs t)

/-- The walk of `DiffRenderer._render_changes` after sorting, carrying
`last_x, last_y`: a change continuing the current run emits only its
character, any other change emits a 1-indexed cursor-position escape first. -/
def renderChangesAux : List Chg → ℤ → ℤ → List Tok
  | [], _, _ => []
  | (x, y, c) :: rest, last_x, last_y =>
      (if y = last_y ∧ x = last_x + 1 then [Tok.ch c]
       else [Tok.pos (y + 1) (x + 1), Tok.ch c]) ++ renderChangesAux rest x y

/-- Source `DiffRenderer._render_changes(changes)`: sort, then walk from
`last_x = last_y = -1`. -/
def renderChanges (changes : List Chg) : List Tok :=
  renderChangesAux (sortChgs changes) (-1) (-1)

/-- Source `DiffRenderer` state: the remembered snapshot and the force-full flag. -/
structure DiffRenderer where
  last_buffer : Option Buffer
  force_full : Bool

/-- Source `DiffRenderer.__init__`. -/
def DiffRenderer.init : DiffRenderer := ⟨none, true⟩

/-- Source `DiffRenderer.render(buffer)`: full render (cursor-home + full buffer
text) when forced or on first call, else the diff of the snapshot against
`buffer`; afterwards the snapshot (created blank at `buffer`'s size if
absent) receives `copy_from(buffer)`.  Returns the emitted output and the
new renderer state.  (The source's `if changes:` guard is a no-op at this
level: an empty change list renders to no output either way.) -/
def DiffRenderer.render (r : DiffRenderer) (buffer : Buffer) : List Tok × DiffRenderer :=
  let fullBranch := r.force_full || r.last_buffer.isNone
  let output : List Tok :=
    if fullBranch then Tok.home :: buffer.renderToks
    else
      match r.last_buffer with
      | some old => renderChanges (diffChanges old buffer)
      | none => []
  let force' := if fullBranch then false else r.force_full
  let lb0 :=
    match r.last_buffer with
    | none => Buffer.make buffer.width buffer.height [' ']
    | some old => old
  (output, ⟨some (lb0.copyFrom buffer), force'⟩)

/-- Renders a whole sequence of buffers, concatenating the outputs. -/
def renderAll (r : DiffRenderer) : List Buffer → List Tok × DiffRenderer
  | [] => ([], r)
  | b :: rest =>
      let o := r.render b
      let os := renderAll o.2 rest
      (o.1 ++ os.1, os.2)

/-! ## The naive terminal emulator of claim C1

A `width × height` character grid with a cursor, interpreting cursor-home,
1-indexed cursor-position escapes, newlines, and plain characters (which
print at the cursor and advance it; prints falling outside the grid are
lost). -/

structure Emu where
  width : ℕ
  height : ℕ
  grid : ℤ → ℤ → Char
  cx : ℤ
  cy : ℤ

/-- Print one character at the cursor and advance. -/
def Emu.writeChar (e : Emu) (c : Char) : Emu :=
  { e with
    grid :=
      if 0 ≤ e.cx ∧ e.cx < (e.width : ℤ) ∧ 0 ≤ e.cy ∧ e.cy < (e.height : ℤ) then
        fun x y => if x = e.cx ∧ y = e.cy then c else e.grid x y
      else e.grid,
    cx := e.cx + 1 }

/-- Interpret one output element. -/
def Emu.step (e : Emu) : Tok → Emu
  | .home => { e with cx := 0, cy := 0 }
  | .pos row col => { e with cx := col - 1, cy := row - 1 }
  | .newline => { e with cx := 0, cy := e.cy + 1 }
  | .ch c => e.writeChar c

/-- Replay a whole output stream. -/
def Emu.run (e : Emu) (ts : List Tok) : Emu :=
  ts.foldl Emu.step e

/-- Semantic effect of a change list: each `(x, y, c)` entry sets cell
`(x, y)` to `c`, in list order (used to state what replaying a diff does). -/
def applyChgs (g : ℤ → ℤ → Char) : List Chg → ℤ → ℤ → Char
  | [] => g
  | (x, y, c) :: rest =>
      applyChgs (fun x' y' => if x' = x ∧ y' = y then c else g x' y') rest

/-- Synchronisation invariant tying a renderer to an emulator that has
replayed all of its output so far: the force flag is clear and the
remembered snapshot has the emulator's dimensions and matches its screen
on every in-range cell. -/
def RendererSync (r : DiffRenderer) (e : Emu) : Prop :=
  r.force_full = false ∧
  ∃ lb, r.last_buffer = some lb ∧ lb.width = e.width ∧ lb.height = e.height ∧
    ∀ x y : ℤ, 0 ≤ x → x < (e.width : ℤ) → 0 ≤ y → y < (e.height : ℤ) →
      e.grid x y = lb.get x y

/-! ## Concrete instances used by counterexamples and witnesses -/

/-- Particle exhibiting the round-vs-truncate divergence of `get_char`:
`life_ratio = 1/5`, so the fade index is `(4/5)·2 = 8/5`. -/
def pRound : Particle :=
  { x := 0, y := 0, lifetime := 1/5, max_lifetime := 1,
    char_sequence := some ['a', 'b', 'c'] }

/-- A fading particle at half life over a two-character sequence. -/
def pHalf : Particle :=
  { x := 0, y := 0, lifetime := 1/2, max_lifetime := 1,
    char_sequence := some ['x', 'y'] }

/-- The scenario particle of claim C7. -/
def pScenario : Particle :=
  { x := 0, y := 0, vx := 0, vy := 0, lifetime := 1, max_lifetime := 1,
    gravity_scale := 1, drag := 1 }

/-- The claim C4 emitter: `spawn_rate=10, spread=0, direction=0`, active,
fresh accumulator. -/
def emRate10 : ParticleEmitter := { spawn_rate := 10, spread := 0, direction := 0 }

/-- An inactive emitter (for the C10 witness). -/
def emInactive : ParticleEmitter :=
  { spawn_rate := 10, spread := 0, direction := 0, active := false }

/-- An active emitter with rate 2 (for the C6 witness). -/
def emRate2 : ParticleEmitter := { spawn_rate := 2, spread := 0, direction := 0 }

/-- Canvas with `max_particles = 0` holding one healthy particle — the
input on which the `particles[-max_particles:]` slice keeps everything. -/
def cvZeroCap : ParticleCanvas :=
  { width := 10, height := 10, gravity := 0, max_particles := 0,
    particles := [{ x := 2, y := 2, lifetime := 1 }] }

/-- A 1×1 buffer holding `a`. -/
def bufA : Buffer := ⟨1, 1, fun _ _ => 'a'⟩

/-- A 2×1 buffer holding `bc` — a different shape than `bufA`. -/
def bufBC : Buffer := ⟨2, 1, fun x _ => if x = 0 then 'b' else 'c'⟩

/-- A second 2×1 buffer, `bd`, differing from `bufBC` in one cell. -/
def bufBD : Buffer := ⟨2, 1, fun x _ => if x = 0 then 'b' else 'd'⟩

/-- A 2×1 terminal emulator whose screen starts as `z`s with the cursor
parked at an arbitrary position. -/
def emuZ : Emu := ⟨2, 1, fun _ _ => 'z', 5, 7⟩

/-- An out-of-bounds probe buffer for the C9 witness. -/
def bufSmall : Buffer := ⟨2, 2, fun _ _ => ' '⟩

/-!
# Theorems
-/

/-! ## Ground facts about the spawn loop -/

/-- The spawn loop extracts exactly the integer part of a nonnegative
accumulator and leaves its fractional part. -/
theorem spawnLoop_spec : ∀ (n : ℕ) (acc : ℚ), 0 ≤ acc → ⌊acc⌋.toNat = n →
    spawnLoop acc = (⌊acc⌋.toNat, acc - ⌊acc⌋) := by
  intro n
  induction n with
  | zero =>
      intro acc hpos hfl
      have h0 : (0 : ℤ) ≤ ⌊acc⌋ := Int.floor_nonneg.mpr hpos
      have hz : ⌊acc⌋ = 0 := by omega
      have hlt : acc < 1 := by
        have := Int.lt_floor_add_one acc
        rw [hz] at this
        simpa using this
      rw [spawnLoop]
      simp [not_le.mpr hlt, hz, hfl]
  | succ n ih =>
      intro acc hpos hfl
      have h1 : (1 : ℤ) ≤ ⌊acc⌋ := by omega
      have hge : (1 : ℚ) ≤ acc := by
        have := Int.floor_le acc
        calc (1 : ℚ) ≤ (⌊acc⌋ : ℚ) := by exact_mod_cast h1
        _ ≤ acc := this
      have hfl' : ⌊acc - (1 : ℚ)⌋ = ⌊acc⌋ - 1 := by
        exact_mod_cast Int.floor_sub_int acc 1
      have ih' := ih (acc - 1) (by linarith) (by omega)
      rw [spawnLoop, if_pos hge, ih']
      simp only [Prod.mk.injEq]
      constructor
      · rw [hfl']
        omega
      · rw [hfl']
        push_cast [Int.toNat_of_nonneg (by omega : (0:ℤ) ≤ ⌊acc⌋ - 1)]
        ring

/-! ## Claim C9 — Buffer bounds handling -/

/-- C9: for every coordinate outside `[0,width)×[0,height)`, `Buffer.set`
leaves the buffer unchanged and `Buffer.get` returns the blank character
(both are total functions, so nothing is raised); for in-bounds
coordinates, `set` stores the first character of its argument (a space when
it is empty). -/
theorem buffer_set_get_bounds :
    (∀ (b : Buffer) (x y : ℤ) (ch : List Char),
      ¬(0 ≤ x ∧ x < (b.width : ℤ) ∧ 0 ≤ y ∧ y < (b.height : ℤ)) →
        b.set x y ch = b ∧ b.get x y = ' ') ∧
    (∀ (b : Buffer) (x y : ℤ) (ch : List Char),
      0 ≤ x ∧ x < (b.width : ℤ) ∧ 0 ≤ y ∧ y < (b.height : ℤ) →
        (b.set x y ch).get x y = firstChar ch) := by
  constructor
  · intro b x y ch h
    constructor
    · rw [Buffer.set, if_neg h]
    · rw [Buffer.get, if_neg h]
  · intro b x y ch h
    rw [Buffer.set, if_pos h, Buffer.get]
    simp only []
    rw [if_pos h]
    simp

/-- Witness for C9 at concrete inputs: `(5,0)` is out of bounds on the 2×2
buffer, `(0,0)` is in bounds. -/
theorem buffer_set_get_bounds_witness :
    (bufSmall.set 5 0 ['q'] = bufSmall ∧ bufSmall.get 5 0 = ' ') ∧
    (bufSmall.set 0 0 ['q']).get 0 0 = 'q' :=
  ⟨buffer_set_get_bounds.1 bufSmall 5 0 ['q'] (by decide),
   buffer_set_get_bounds.2 bufSmall 0 0 ['q'] (by decide)⟩

/-! ## Claim C7 — Particle.update semantics and the two-step scenario -/

/-- C7: `Particle.update(dt, gravity)` performs, in order,
`vy += gravity·gravity_scale·dt`, `vx *= drag`, `vy *= drag`,
`x += vx·dt`, `y += vy·dt`, `lifetime -= dt`; `alive` holds iff
`lifetime > 0`; and the particle `(x=0, y=0, vx=0, vy=0, lifetime=1,
gravity_scale=1, drag=1)` updated twice with `dt=1/2, gravity=10` passes
through exactly the states of the scenario. -/
theorem particle_update_steps_and_scenario :
    (∀ (p : Particle) (dt gravity : ℚ),
      p.update dt gravity =
        { p with
          vx := p.vx * p.drag,
          vy := (p.vy + gravity * p.gravity_scale * dt) * p.drag,
          x := p.x + p.vx * p.drag * dt,
          y := p.y + (p.vy + gravity * p.gravity_scale * dt) * p.drag * dt,
          lifetime := p.lifetime - dt }) ∧
    (∀ p : Particle, p.alive = true ↔ p.lifetime > 0) ∧
    ((pScenario.update (1/2) 10).vy = 5 ∧
     (pScenario.update (1/2) 10).y = 5/2 ∧
     (pScenario.update (1/2) 10).lifetime = 1/2 ∧
     (pScenario.update (1/2) 10).alive = true ∧
     ((pScenario.update (1/2) 10).update (1/2) 10).vy = 10 ∧
     ((pScenario.update (1/2) 10).update (1/2) 10).y = 15/2 ∧
     ((pScenario.update (1/2) 10).update (1/2) 10).lifetime = 0 ∧
     ((pScenario.update (1/2) 10).update (1/2) 10).alive = false) := by
  refine ⟨fun p dt gravity => rfl, fun p => ?_, ?_⟩
  · simp [Particle.alive]
  · norm_num [pScenario, Particle.update, Particle.alive]

/-! ## Claim C5 — easing registry endpoints -/

/-- C5: every function in the `EASING` registry (linear, ease_in, ease_out,
ease_in_out, ease_in_cubic, ease_out_cubic, ease_in_out_cubic,
ease_out_elastic, ease_out_bounce) satisfies `f 0 = 0` and `f 1 = 1`
exactly — for the elastic function this holds for every value of its
transcendental core, because the endpoints are guarded explicitly. -/
theorem easing_registry_endpoints (core : ℚ → ℚ) (entry : String × (ℚ → ℚ))
    (h : entry ∈ EASING core) : entry.2 0 = 0 ∧ entry.2 1 = 1 := by
  simp only [EASING, List.mem_cons, List.not_mem_nil, or_false] at h
  rcases h with h | h | h | h | h | h | h | h | h <;> subst h
  · exact ⟨by norm_num [linear], by norm_num [linear]⟩
  · exact ⟨by norm_num [ease_in], by norm_num [ease_in]⟩
  · exact ⟨by norm_num [ease_out], by norm_num [ease_out]⟩
  · exact ⟨by norm_num [ease_in_out], by norm_num [ease_in_out]⟩
  · exact ⟨by norm_num [ease_in_cubic], by norm_num [ease_in_cubic]⟩
  · exact ⟨by norm_num [ease_out_cubic], by norm_num [ease_out_cubic]⟩
  · exact ⟨by norm_num [ease_in_out_cubic], by norm_num [ease_in_out_cubic]⟩
  · exact ⟨by simp [ease_out_elastic], by simp [ease_out_elastic]⟩
  · exact ⟨by norm_num [ease_out_bounce], by norm_num [ease_out_bounce]⟩

/-- Witness for C5: the `linear` entry of the registry (with identity core)
maps 0 to 0 and 1 to 1. -/
theorem easing_registry_endpoints_witness :
    (("linear", linear) ∈ EASING (fun t => t)) ∧ linear 0 = 0 ∧ linear 1 = 1 :=
  ⟨by simp [EASING],
   (easing_registry_endpoints (fun t => t) ("linear", linear) (by simp [EASING])).1,
   (easing_registry_endpoints (fun t => t) ("linear", linear) (by simp [EASING])).2⟩

/-! ## Claim C10 — disabled emitters accrue no spawn credit -/

/-- C10: when an emitter is inactive or has `spawn_rate ≤ 0`, `update(dt)`
spawns nothing and returns the emitter state fully unchanged (in
particular the spawn accumulator). -/
theorem emitter_update_disabled (e : ParticleEmitter) (dt : ℚ)
    (h : e.active = false ∨ e.spawn_rate ≤ 0) : e.update dt = (0, e) := by
  rcases h with h | h
  · simp [ParticleEmitter.update, h]
  · simp [ParticleEmitter.update, h]

/-- Witness for C10: the concrete inactive emitter, ticked with `dt = 1`. -/
theorem emitter_update_disabled_witness :
    (emInactive.active = false ∨ emInactive.spawn_rate ≤ 0) ∧
      emInactive.update 1 = (0, emInactive) :=
  ⟨Or.inl rfl, emitter_update_disabled emInactive 1 (Or.inl rfl)⟩

/-- An active emitter with positive rate takes the accumulator branch of
`update`. -/
theorem emitter_update_active (e : ParticleEmitter) (dt : ℚ)
    (ha : e.active = true) (hr : 0 < e.spawn_rate) :
    e.update dt = ((spawnLoop (e.spawn_accumulator + dt * e.spawn_rate)).1,
      { e with spawn_accumulator := (spawnLoop (e.spawn_accumulator + dt * e.spawn_rate)).2 }) := by
  simp [ParticleEmitter.update, ha, not_le.mpr hr]

/-! ## Claim C4 — five ticks of 0.3 s at rate 10 -/

/-- C4: the emitter `spawn_rate=10, spread=0, direction=0`, active and
fresh, ticked five times with `dt = 3/10` (each tick adds exactly 3
spawn-units, as does the IEEE product `0.3 * 10 == 3.0`), spawns exactly
15 particles and ends with accumulator exactly 0. -/
theorem emitter_five_ticks_spawn_fifteen :
    (updateRuns emRate10 (List.replicate 5 (3/10))).1 = 15 ∧
    (updateRuns emRate10 (List.replicate 5 (3/10))).2.spawn_accumulator = 0 := by
  have hf3 : ⌊(3 : ℚ)⌋ = 3 := by norm_num
  have h3 : spawnLoop 3 = (3, 0) := by
    have h := spawnLoop_spec 3 3 (by norm_num) (by rw [hf3]; rfl)
    rw [hf3] at h
    norm_num at h
    exact h
  have hacc : emRate10.spawn_accumulator + 3/10 * emRate10.spawn_rate = 3 := by
    norm_num [emRate10]
  have hstep : emRate10.update (3/10) = (3, emRate10) := by
    rw [emitter_update_active emRate10 (3/10) rfl (by norm_num [emRate10]), hacc, h3]
    rfl
  simp only [List.replicate, updateRuns, hstep]
  exact ⟨by norm_num, rfl⟩

/-! ## Claim C6 — total spawn count versus ⌊R·T⌋ -/

/-- Invariant of repeated `update` calls on an active emitter: the spawn
total plus the remaining accumulator equals the accumulated spawn-units,
and the accumulator stays in `[0, 1)`. -/
theorem updateRuns_inv : ∀ (dts : List ℚ) (e : ParticleEmitter),
    e.active = true → 0 < e.spawn_rate →
    0 ≤ e.spawn_accumulator → e.spawn_accumulator < 1 →
    (∀ dt ∈ dts, 0 ≤ dt) →
    ((updateRuns e dts).1 : ℚ) + (updateRuns e dts).2.spawn_accumulator
        = e.spawn_accumulator + e.spawn_rate * dts.sum ∧
      0 ≤ (updateRuns e dts).2.spawn_accumulator ∧
      (updateRuns e dts).2.spawn_accumulator < 1 := by
  intro dts
  induction dts with
  | nil =>
      intro e ha hr h0 h1 _
      refine ⟨?_, h0, h1⟩
      simp [updateRuns]
  | cons dt rest ih =>
      intro e ha hr h0 h1 hdts
      have hdt : 0 ≤ dt := hdts dt (by simp)
      have hrest : ∀ d ∈ rest, 0 ≤ d := fun d hd => hdts d (by simp [hd])
      have hacc : 0 ≤ e.spawn_accumulator + dt * e.spawn_rate :=
        add_nonneg h0 (mul_nonneg hdt hr.le)
      set a1 := e.spawn_accumulator + dt * e.spawn_rate with ha1
      have hloop := spawnLoop_spec ⌊a1⌋.toNat a1 hacc rfl
      have hfnn : (0 : ℤ) ≤ ⌊a1⌋ := Int.floor_nonneg.mpr hacc
      have hf0 : 0 ≤ a1 - ⌊a1⌋ := sub_nonneg.mpr (Int.floor_le a1)
      have hf1 : a1 - ⌊a1⌋ < 1 := by
        have := Int.lt_floor_add_one a1
        linarith
      have hupd : e.update dt = (⌊a1⌋.toNat, { e with spawn_accumulator := a1 - ⌊a1⌋ }) := by
        rw [emitter_update_active e dt ha hr, ← ha1, hloop]
      have hrun : updateRuns e (dt :: rest) =
          (⌊a1⌋.toNat + (updateRuns { e with spawn_accumulator := a1 - ↑⌊a1⌋ } rest).1,
           (updateRuns { e with spawn_accumulator := a1 - ↑⌊a1⌋ } rest).2) := by
        simp [updateRuns, hupd]
      have ihh := ih { e with spawn_accumulator := a1 - ↑⌊a1⌋ } ha hr hf0 hf1 hrest
      dsimp only at ihh
      rw [hrun]
      refine ⟨?_, ihh.2.1, ihh.2.2⟩
      have hsum := ihh.1
      have hq : ((⌊a1⌋.toNat : ℕ) : ℚ) = (⌊a1⌋ : ℚ) := by
        exact_mod_cast Int.toNat_of_nonneg hfnn
      have hmul : e.spawn_rate * (dt + rest.sum)
          = dt * e.spawn_rate + e.spawn_rate * rest.sum := by ring
      push_cast
      simp only [List.sum_cons]
      linarith [hsum, hq, hmul]

/-- C6: an active emitter with `spawn_rate R > 0` and fresh accumulator,
ticked with any finite sequence of positive `dt`s summing to `T`, spawns a
total within 1 of `⌊R·T⌋` (in the exact-arithmetic model the total equals
`⌊R·T⌋`). -/
theorem emitter_total_spawn_within_floor (e : ParticleEmitter) (dts : List ℚ)
    (ha : e.active = true) (hr : 0 < e.spawn_rate) (h0 : e.spawn_accumulator = 0)
    (hdts : ∀ dt ∈ dts, 0 < dt) :
    |((updateRuns e dts).1 : ℤ) - ⌊e.spawn_rate * dts.sum⌋| ≤ 1 := by
  obtain ⟨hsum, hnn, hlt⟩ := updateRuns_inv dts e ha hr (le_of_eq h0.symm)
    (by rw [h0]; norm_num) (fun d hd => (hdts d hd).le)
  rw [h0, zero_add] at hsum
  have hfloor : ⌊e.spawn_rate * dts.sum⌋ = ((updateRuns e dts).1 : ℤ) := by
    rw [Int.floor_eq_iff]
    constructor
    · push_cast
      linarith
    · push_cast
      linarith
  rw [hfloor]
  simp

/-- Witness for C6: rate 2, two ticks `[1/2, 1/4]`; `T = 3/4`,
`⌊R·T⌋ = 1`. -/
theorem emitter_total_spawn_within_floor_witness :
    (emRate2.active = true ∧ 0 < emRate2.spawn_rate ∧ emRate2.spawn_accumulator = 0 ∧
      ∀ dt ∈ [(1:ℚ)/2, 1/4], 0 < dt) ∧
    |((updateRuns emRate2 [(1:ℚ)/2, 1/4]).1 : ℤ) - ⌊emRate2.spawn_rate * ([(1:ℚ)/2, 1/4]).sum⌋| ≤ 1 :=
  ⟨⟨rfl, by norm_num [emRate2], rfl, by norm_num⟩,
   emitter_total_spawn_within_floor emRate2 [(1:ℚ)/2, 1/4] rfl
     (by norm_num [emRate2]) rfl (by norm_num)⟩

/-! ## Claim C3 — get_char indexing -/

/-- Python truncation agrees with the floor on nonnegative input. -/
theorem pyTrunc_of_nonneg (q : ℚ) (h : 0 ≤ q) : pyTrunc q = ⌊q⌋ :=
  if_neg (not_lt.mpr h)

/-- Python truncation of a nonpositive value is nonpositive. -/
theorem pyTrunc_nonpos (q : ℚ) (h : q ≤ 0) : pyTrunc q ≤ 0 := by
  unfold pyTrunc
  split
  · have : (0 : ℤ) ≤ ⌊-q⌋ := Int.floor_nonneg.mpr (by linarith)
    omega
  · have : ⌊q⌋ ≤ ⌊(0 : ℚ)⌋ := Int.floor_le_floor h
    simpa using this

/-- Counterexample to C3 as stated: at `lifetime = 1/5`, `max_lifetime = 1`
over the sequence `"abc"`, the fade index is `8/5`; the code truncates it
to 1 and yields `'b'`, while the claimed `round` formula yields index 2 and
`'c'`. -/
theorem get_char_round_counterexample :
    Particle.get_char pRound = ['b'] ∧ Particle.getCharSpecRound pRound = ['c'] := by
  constructor
  · norm_num [Particle.get_char, pRound, seqTruthy, Particle.life_ratio, clamp,
      clampInt, pyTrunc, min_def, max_def, List.getD]
  · norm_num [Particle.getCharSpecRound, pRound, seqTruthy, clampInt, round_eq,
      pyTrunc, min_def, max_def, List.getD]
    decide

/-- C3 amended: for a particle with positive `max_lifetime`, non-empty
`char_sequence` and fade enabled, `get_char()` returns the character at
index `clamp(trunc((1 − lifetime/max_lifetime)·(len(seq)−1)), 0,
len(seq)−1)` — the claim's formula with `round` replaced by truncation
toward zero; without a sequence or with fade disabled it returns the fixed
`char`.  (Both cases are packaged in `getCharSpecTrunc`.) -/
theorem get_char_trunc_correct (p : Particle) (hm : 0 < p.max_lifetime) :
    p.get_char = p.getCharSpecTrunc := by
  by_cases hft : (seqTruthy p.char_sequence && p.fade) = true
  case neg => simp [Particle.get_char, Particle.getCharSpecTrunc, hft]
  case pos =>
    simp only [Particle.get_char, Particle.getCharSpecTrunc, hft, if_true]
    set seq := p.char_sequence.getD [] with hseqdef
    have hn : 1 ≤ seq.length := by
      rw [hseqdef]
      rcases hcs : p.char_sequence with _ | l
      · rw [hcs] at hft
        simp [seqTruthy] at hft
      · rcases l with _ | ⟨c, t⟩
        · rw [hcs] at hft
          simp [seqTruthy] at hft
        · simp
    have hn' : (0 : ℤ) ≤ (seq.length : ℤ) - 1 := by omega
    have hnq : (0 : ℚ) ≤ ((seq.length : ℚ) - 1) := by
      have : (1 : ℚ) ≤ (seq.length : ℚ) := by exact_mod_cast hn
      linarith
    suffices hidx :
        clampInt (pyTrunc ((1 - p.life_ratio) * ((seq.length : ℚ) - 1))) 0 ((seq.length : ℤ) - 1)
          = clampInt (pyTrunc ((1 - p.lifetime / p.max_lifetime) * ((seq.length : ℚ) - 1))) 0
              ((seq.length : ℤ) - 1) by
      rw [hidx]
    have hlr : p.life_ratio = clamp (p.lifetime / p.max_lifetime) 0 1 := by
      rw [Particle.life_ratio, if_neg (not_le.mpr hm)]
    set r := p.lifetime / p.max_lifetime with hrdef
    by_cases hr0 : r < 0
    · -- raw ratio negative: both indices clamp to the last character
      have hcl : clamp r 0 1 = 0 := by
        rw [clamp, min_eq_right (le_of_lt (lt_trans hr0 one_pos)), max_eq_left hr0.le]
      have hcast : ((seq.length : ℚ) - 1) = (((seq.length : ℤ) - 1 : ℤ) : ℚ) := by push_cast; ring
      have hL : pyTrunc ((1 - p.life_ratio) * ((seq.length : ℚ) - 1)) = (seq.length : ℤ) - 1 := by
        rw [hlr, hcl]
        rw [pyTrunc_of_nonneg _ (by rw [hcast]; push_cast; linarith)]
        rw [show (1 - (0:ℚ)) * ((seq.length : ℚ) - 1) = ((seq.length : ℚ) - 1) by ring,
          hcast, Int.floor_intCast]
      have hRge : ((seq.length : ℤ) - 1)
          ≤ pyTrunc ((1 - r) * ((seq.length : ℚ) - 1)) := by
        have hq0 : (0:ℚ) ≤ (1 - r) * ((seq.length : ℚ) - 1) :=
          mul_nonneg (by linarith) hnq
        rw [pyTrunc_of_nonneg _ hq0]
        apply Int.le_floor.mpr
        rw [← hcast]
        nlinarith [hnq]
      rw [hL, clampInt, clampInt, min_self, max_eq_right hn',
        min_eq_left hRge, max_eq_right hn']
    · by_cases hr1 : 1 < r
      · -- raw ratio above one: both indices clamp to the first character
        have hcl : clamp r 0 1 = 1 := by
          rw [clamp, min_eq_left hr1.le, max_eq_right zero_le_one]
        have hL : pyTrunc ((1 - p.life_ratio) * ((seq.length : ℚ) - 1)) = 0 := by
          rw [hlr, hcl]
          rw [show (1 - (1:ℚ)) * ((seq.length : ℚ) - 1) = 0 by ring]
          rw [pyTrunc_of_nonneg _ le_rfl]
          exact Int.floor_zero
        have hRle : pyTrunc ((1 - r) * ((seq.length : ℚ) - 1)) ≤ 0 := by
          apply pyTrunc_nonpos
          nlinarith [hnq]
        rw [hL, clampInt, clampInt, min_eq_right hn', max_self,
          min_eq_right (le_trans hRle hn'),
          max_eq_left hRle]
      · -- ratio already in [0,1]: the clamp is the identity
        have hcl : clamp r 0 1 = r := by
          rw [clamp, min_eq_right (not_lt.mp hr1), max_eq_right (not_lt.mp hr0)]
        rw [hlr, hcl]

/-- Witness for C3's amended theorem: the fading particle at half life over
`"xy"` selects the same character through the code and the amended
formula. -/
theorem get_char_trunc_correct_witness :
    0 < pHalf.max_lifetime ∧ pHalf.get_char = pHalf.getCharSpecTrunc :=
  ⟨by norm_num [pHalf], get_char_trunc_correct pHalf (by norm_num [pHalf])⟩

/-! ## Claim C8 — max_particles capacity -/

/-- C8 failing input: on a canvas with `max_particles = 0` holding one
healthy particle, `update_particles` keeps the particle — the count (1)
exceeds `max_particles` (0), because the eviction slice
`particles[-max_particles:]` is `particles[-0:]`, the whole list.  For
`max_particles ≥ 1` the claim's eviction behaviour is what the code
implements (`drop (len - max)`), but the capacity bound itself is violated
at this input. -/
theorem update_particles_zero_cap_bug :
    (cvZeroCap.updateParticles (1/10) []).particles.length = 1 ∧
      cvZeroCap.max_particles = 0 := by
  constructor
  · norm_num [ParticleCanvas.updateParticles, cvZeroCap, Particle.update,
      ParticleCanvas.particleAlive, Particle.alive, List.filter, pySliceLast]
  · rfl

/-! ## Claim C2 — the renderer snapshot after render -/

/-- Counterexample to C2 as stated: render the 1×1 buffer `bufA`, then the
2×1 buffer `bufBC`; after the second call the remembered `last_buffer`
still has width 1 while the buffer just rendered has width 2, because
`copy_from` only copies the overlapping region and never resizes. -/
theorem render_last_buffer_shape_counterexample :
    ((DiffRenderer.init.render bufA).2.render bufBC).2.last_buffer.map Buffer.width = some 1 ∧
      bufBC.width = 2 :=
  ⟨rfl, rfl⟩

/-- C2 amended: after `render(buffer)` — on either branch — the remembered
`last_buffer` equals the rendered buffer cell for cell, *provided* the
renderer was fresh (`last_buffer = None`) or its snapshot already had the
same dimensions as `buffer` (the source never resizes the snapshot, so
for a dimension-changing buffer only the overlap is copied). -/
theorem render_last_buffer_copies (r : DiffRenderer) (b : Buffer)
    (h : r.last_buffer = none ∨
      ∃ lb, r.last_buffer = some lb ∧ lb.width = b.width ∧ lb.height = b.height) :
    ∃ lb', (r.render b).2.last_buffer = some lb' ∧
      lb'.width = b.width ∧ lb'.height = b.height ∧
      ∀ x y : ℤ, 0 ≤ x → x < (b.width : ℤ) → 0 ≤ y → y < (b.height : ℤ) →
        lb'.get x y = b.get x y := by
  rcases h with h | ⟨lb, h, hw, hh⟩
  · refine ⟨(Buffer.make b.width b.height [' ']).copyFrom b, ?_, rfl, rfl, ?_⟩
    · simp [DiffRenderer.render, h]
    · intro x y hx0 hxw hy0 hyh
      simp only [Buffer.copyFrom, Buffer.make, Buffer.get, min_self]
      rw [if_pos ⟨hx0, hxw, hy0, hyh⟩, if_pos ⟨hx0, hxw, hy0, hyh⟩,
        if_pos ⟨hx0, hxw, hy0, hyh⟩]
  · refine ⟨lb.copyFrom b, ?_, ?_, ?_, ?_⟩
    · simp [DiffRenderer.render, h]
    · simp [Buffer.copyFrom, hw]
    · simp [Buffer.copyFrom, hh]
    · intro x y hx0 hxw hy0 hyh
      simp only [Buffer.copyFrom, Buffer.get, hw, hh, min_self]
      rw [if_pos ⟨hx0, hxw, hy0, hyh⟩, if_pos ⟨hx0, hxw, hy0, hyh⟩,
        if_pos ⟨hx0, hxw, hy0, hyh⟩]

/-- Witness for C2's amended theorem: a fresh renderer rendering the 2×1
buffer `bufBC` remembers a snapshot of its exact shape and content. -/
theorem render_last_buffer_copies_witness :
    (DiffRenderer.init.last_buffer = none ∨
      ∃ lb, DiffRenderer.init.last_buffer = some lb ∧
        lb.width = bufBC.width ∧ lb.height = bufBC.height) ∧
    ∃ lb', (DiffRenderer.init.render bufBC).2.last_buffer = some lb' ∧
      lb'.width = bufBC.width ∧ lb'.height = bufBC.height ∧
      ∀ x y : ℤ, 0 ≤ x → x < (bufBC.width : ℤ) → 0 ≤ y → y < (bufBC.height : ℤ) →
        lb'.get x y = bufBC.get x y :=
  ⟨Or.inl rfl, render_last_buffer_copies DiffRenderer.init bufBC (Or.inl rfl)⟩

/-! ## Claim C1 — replaying the renderer output reconstructs the buffer

The development follows the renderer's two code paths: a full render is a
cursor-home plus the newline-joined rows, a diff render is the sorted
change walk; each is shown to leave the emulator screen equal to the
rendered buffer, and the render/replay loop preserves `RendererSync`. -/

/-- One emulator step never changes the screen dimensions. -/
theorem Emu.step_dims (e : Emu) (t : Tok) :
    (e.step t).width = e.width ∧ (e.step t).height = e.height := by
  cases t <;> exact ⟨rfl, rfl⟩

/-- Replaying never changes the screen dimensions. -/
theorem Emu.run_dims : ∀ (ts : List Tok) (e : Emu),
    (e.run ts).width = e.width ∧ (e.run ts).height = e.height := by
  intro ts
  induction ts with
  | nil => exact fun e => ⟨rfl, rfl⟩
  | cons t rest ih =>
      intro e
      have h := ih (e.step t)
      have hs := Emu.step_dims e t
      exact ⟨by rw [Emu.run, List.foldl_cons, ← Emu.run, h.1, hs.1],
             by rw [Emu.run, List.foldl_cons, ← Emu.run, h.2, hs.2]⟩

/-- Replaying a concatenation replays the parts in order. -/
theorem Emu.run_append (e : Emu) (a b : List Tok) :
    e.run (a ++ b) = (e.run a).run b := by
  simp [Emu.run, List.foldl_append]

/-- An in-bounds print updates exactly the cursor cell. -/
theorem Emu.writeChar_grid_inb (e : Emu) (c : Char)
    (hin : 0 ≤ e.cx ∧ e.cx < (e.width : ℤ) ∧ 0 ≤ e.cy ∧ e.cy < (e.height : ℤ)) :
    (e.writeChar c).grid = fun x y => if x = e.cx ∧ y = e.cy then c else e.grid x y := by
  simp [Emu.writeChar, hin]

/-- Replaying one screen row of characters starting at column `x0` of row
`y` writes those cells and moves the cursor to the column after the run. -/
theorem run_row (b : Buffer) (y : ℕ) : ∀ (w0 x0 : ℕ) (e : Emu),
    e.width = b.width → e.height = b.height →
    x0 + w0 ≤ b.width → y < b.height → e.cx = (x0 : ℤ) → e.cy = (y : ℤ) →
    (∀ x' y' : ℤ,
      (e.run ((List.range' x0 w0).map fun x : ℕ => Tok.ch (b.cells (x : ℤ) (y : ℤ)))).grid x' y'
        = if y' = (y : ℤ) ∧ (x0 : ℤ) ≤ x' ∧ x' < (x0 : ℤ) + (w0 : ℤ) then b.cells x' y'
          else e.grid x' y') ∧
    (e.run ((List.range' x0 w0).map fun x : ℕ => Tok.ch (b.cells (x : ℤ) (y : ℤ)))).cx = ((x0 + w0 : ℕ) : ℤ) ∧
    (e.run ((List.range' x0 w0).map fun x : ℕ => Tok.ch (b.cells (x : ℤ) (y : ℤ)))).cy = (y : ℤ) := by
  intro w0
  induction w0 with
  | zero =>
      intro x0 e hw hh hxw hy hcx hcy
      refine ⟨?_, by simpa using hcx, hcy⟩
      intro x' y'
      rw [if_neg]
      · rfl
      · rintro ⟨h1, h2, h3⟩
        omega
  | succ w0 ih =>
      intro x0 e hw hh hxw hy hcx hcy
      rw [List.range'_succ, List.map_cons]
      have hrun : e.run (Tok.ch (b.cells (x0 : ℤ) (y : ℤ))
            :: (List.range' (x0 + 1) w0).map (fun x : ℕ => Tok.ch (b.cells (x : ℤ) (y : ℤ))))
          = (e.writeChar (b.cells x0 y)).run
              ((List.range' (x0 + 1) w0).map fun x : ℕ => Tok.ch (b.cells (x : ℤ) (y : ℤ))) := rfl
      rw [hrun]
      have hin : 0 ≤ e.cx ∧ e.cx < (e.width : ℤ) ∧ 0 ≤ e.cy ∧ e.cy < (e.height : ℤ) := by
        rw [hcx, hcy, hw, hh]
        constructor
        · exact_mod_cast Nat.zero_le x0
        refine ⟨by exact_mod_cast (by omega : x0 < b.width), ?_, ?_⟩
        · exact_mod_cast Nat.zero_le y
        · exact_mod_cast hy
      have hgw : ∀ xx yy : ℤ, (e.writeChar (b.cells (x0 : ℤ) (y : ℤ))).grid xx yy
          = if xx = (x0 : ℤ) ∧ yy = (y : ℤ) then b.cells (x0 : ℤ) (y : ℤ)
            else e.grid xx yy := by
        intro xx yy
        simp only [Emu.writeChar_grid_inb e _ hin]
        rw [hcx, hcy]
      have ihh := ih (x0 + 1) (e.writeChar (b.cells (x0 : ℤ) (y : ℤ))) hw hh (by omega) hy
        (by rw [show (e.writeChar (b.cells (x0 : ℤ) (y : ℤ))).cx = e.cx + 1 from rfl, hcx]
            push_cast
            ring)
        hcy
      refine ⟨?_, ?_, ihh.2.2⟩
      · intro x' y'
        rw [ihh.1 x' y', hgw x' y']
        push_cast
        by_cases hy' : y' = (y : ℤ)
        case neg =>
          rw [if_neg (fun h => hy' h.1), if_neg (fun h => hy' h.2), if_neg (fun h => hy' h.1)]
        case pos =>
          by_cases hx1 : (x0 : ℤ) + 1 ≤ x' ∧ x' < (x0 : ℤ) + 1 + (w0 : ℤ)
          · rw [if_pos ⟨hy', hx1.1, hx1.2⟩, if_pos ⟨hy', by omega, by omega⟩]
          · rw [if_neg (fun h => hx1 ⟨h.2.1, h.2.2⟩)]
            by_cases hx0 : x' = (x0 : ℤ)
            · rw [if_pos ⟨hx0, hy'⟩, if_pos ⟨hy', by omega, by omega⟩, hx0, hy']
            · rw [if_neg (fun h => hx0 h.1), if_neg]
              rintro ⟨h1, h2, h3⟩
              exact hx1 ⟨by omega, by omega⟩
      · rw [ihh.2.1]
        push_cast
        ring

/-- Replaying `k` consecutive newline-joined rows starting at row `y0`
(cursor at its start) writes exactly those rows of the buffer. -/
theorem run_rows (b : Buffer) : ∀ (k y0 : ℕ) (e : Emu),
    e.width = b.width → e.height = b.height →
    y0 + k ≤ b.height → e.cx = 0 → e.cy = (y0 : ℤ) →
    ∀ x' y' : ℤ,
      (e.run (List.intercalate [Tok.newline]
          ((List.range' y0 k).map fun y : ℕ =>
            (List.range b.width).map fun x : ℕ => Tok.ch (b.cells (x : ℤ) (y : ℤ))))).grid x' y'
        = if (y0 : ℤ) ≤ y' ∧ y' < (y0 : ℤ) + (k : ℤ) ∧ 0 ≤ x' ∧ x' < (b.width : ℤ)
          then b.cells x' y' else e.grid x' y' := by
  intro k
  induction k with
  | zero =>
      intro y0 e hw hh hyk hcx hcy x' y'
      rw [if_neg (by rintro ⟨h1, h2, h3⟩; omega)]
      rfl
  | succ k ih =>
      intro y0 e hw hh hyk hcx hcy x' y'
      have hrow := run_row b y0 b.width 0 e hw hh (by omega) (by omega)
        (by simpa using hcx) hcy
      rw [← List.range_eq_range'] at hrow
      cases k with
      | zero =>
          rw [List.range'_succ, show List.range' (y0 + 1) 0 = [] from rfl, List.map_cons,
            List.map_nil, show List.intercalate [Tok.newline]
              [(List.range b.width).map fun x : ℕ => Tok.ch (b.cells (x : ℤ) (y0 : ℤ))]
              = (List.range b.width).map fun x : ℕ => Tok.ch (b.cells (x : ℤ) (y0 : ℤ)) by
                simp [List.intercalate]]
          rw [hrow.1 x' y']
          simp only [Nat.cast_zero, Nat.cast_add, Nat.cast_one, zero_add]
          by_cases hc : y' = (y0 : ℤ) ∧ (0 : ℤ) ≤ x' ∧ x' < (b.width : ℤ)
          · rw [if_pos hc, if_pos ⟨le_of_eq hc.1.symm, by omega, hc.2.1, hc.2.2⟩]
          · rw [if_neg hc, if_neg]
            rintro ⟨h1, h2, h3, h4⟩
            exact hc ⟨by omega, h3, h4⟩
      | succ k' =>
          rw [List.range'_succ, List.map_cons,
            show List.intercalate [Tok.newline]
                (((List.range b.width).map fun x : ℕ => Tok.ch (b.cells (x : ℤ) (y0 : ℤ)))
                  :: (List.range' (y0 + 1) (k' + 1)).map (fun y : ℕ =>
                    (List.range b.width).map fun x : ℕ => Tok.ch (b.cells (x : ℤ) (y : ℤ))))
              = ((List.range b.width).map fun x : ℕ => Tok.ch (b.cells (x : ℤ) (y0 : ℤ)))
                ++ [Tok.newline] ++ List.intercalate [Tok.newline]
                  ((List.range' (y0 + 1) (k' + 1)).map (fun y : ℕ =>
                    (List.range b.width).map fun x : ℕ => Tok.ch (b.cells (x : ℤ) (y : ℤ)))) by
              rw [show (List.range' (y0 + 1) (k' + 1)).map (fun y : ℕ =>
                  (List.range b.width).map fun x : ℕ => Tok.ch (b.cells (x : ℤ) (y : ℤ)))
                = ((List.range b.width).map fun x : ℕ => Tok.ch (b.cells (x : ℤ) ((y0 + 1 : ℕ) : ℤ)))
                  :: (List.range' (y0 + 1 + 1) k').map (fun y : ℕ =>
                    (List.range b.width).map fun x : ℕ => Tok.ch (b.cells (x : ℤ) (y : ℤ))) by
                rw [List.range'_succ, List.map_cons]]
              simp [List.intercalate, List.intersperse]]
          rw [Emu.run_append, Emu.run_append]
          set e1 := e.run ((List.range b.width).map fun x : ℕ => Tok.ch (b.cells (x : ℤ) (y0 : ℤ)))
            with he1
          have he2 : e1.run [Tok.newline] = e1.step Tok.newline := rfl
          rw [he2]
          have hdims1 := Emu.run_dims ((List.range b.width).map fun x : ℕ =>
            Tok.ch (b.cells (x : ℤ) (y0 : ℤ))) e
          have hih := ih (y0 + 1) (e1.step Tok.newline)
            (by rw [show (e1.step Tok.newline).width = e1.width from rfl, he1, hdims1.1, hw])
            (by rw [show (e1.step Tok.newline).height = e1.height from rfl, he1, hdims1.2, hh])
            (by omega)
            rfl
            (by rw [show (e1.step Tok.newline).cy = e1.cy + 1 from rfl, he1, hrow.2.2]
                push_cast
                ring)
            x' y'
          rw [hih, show (e1.step Tok.newline).grid = e1.grid from rfl, he1, hrow.1 x' y']
          push_cast
          by_cases hcols : 0 ≤ x' ∧ x' < (b.width : ℤ)
          case neg =>
            rw [if_neg (fun h => hcols ⟨h.2.2.1, h.2.2.2⟩),
              if_neg (fun h => hcols ⟨h.2.1, by omega⟩),
              if_neg (fun h => hcols ⟨h.2.2.1, h.2.2.2⟩)]
          case pos =>
            by_cases hyA : (y0 : ℤ) + 1 ≤ y' ∧ y' < (y0 : ℤ) + 1 + (k' : ℤ) + 1
            · rw [if_pos ⟨by omega, by omega, hcols.1, hcols.2⟩,
                if_pos ⟨by omega, by omega, hcols.1, hcols.2⟩]
            · rw [if_neg (fun h => hyA ⟨by omega, by omega⟩)]
              by_cases hy0 : y' = (y0 : ℤ)
              · rw [if_pos ⟨hy0, by omega⟩,
                  if_pos ⟨by omega, by omega, hcols.1, hcols.2⟩, hy0]
              · rw [if_neg (fun h => hy0 h.1), if_neg]
                rintro ⟨h1, h2, h3, h4⟩
                exact hyA ⟨by omega, by omega⟩

/-- Replaying a full render (cursor-home plus the newline-joined buffer
text) leaves every in-range cell of the screen equal to the buffer. -/
theorem run_full_render (b : Buffer) (e : Emu)
    (hw : e.width = b.width) (hh : e.height = b.height) :
    ∀ x' y' : ℤ, 0 ≤ x' → x' < (b.width : ℤ) → 0 ≤ y' → y' < (b.height : ℤ) →
      (e.run (Tok.home :: b.renderToks)).grid x' y' = b.cells x' y' := by
  intro x' y' hx0 hxw hy0 hyh
  have hstep : e.run (Tok.home :: b.renderToks)
      = ({ e with cx := 0, cy := 0 } : Emu).run b.renderToks := rfl
  rw [hstep, Buffer.renderToks,
    show List.range b.height = List.range' 0 b.height from List.range_eq_range' _]
  rw [run_rows b b.height 0 { e with cx := 0, cy := 0 } hw hh (by omega) rfl rfl x' y']
  rw [if_pos ⟨by omega, by push_cast; omega, hx0, hxw⟩]

/-- Membership in the stable insertion is membership in the inputs. -/
theorem mem_insertChg (a c : Chg) : ∀ l : List Chg, a ∈ insertChg c l ↔ a = c ∨ a ∈ l := by
  intro l
  induction l with
  | nil => simp [insertChg]
  | cons d t ih =>
      rw [insertChg]
      split
      · simp
      · rw [List.mem_cons, List.mem_cons, ih]
        tauto

/-- Sorting the change list does not change its members. -/
theorem mem_sortChgs (a : Chg) : ∀ l : List Chg, a ∈ sortChgs l ↔ a ∈ l := by
  intro l
  induction l with
  | nil => simp [sortChgs]
  | cons c t ih =>
      rw [sortChgs, mem_insertChg, ih, List.mem_cons]

/-- Characterisation of `_diff`'s change list: exactly the in-range
positions where the two buffers disagree, tagged with the new character. -/
theorem mem_diffChanges (old b : Buffer) (x y : ℤ) (c : Char) :
    (x, y, c) ∈ diffChanges old b ↔
      ∃ xn yn : ℕ, xn < b.width ∧ yn < b.height ∧ x = (xn : ℤ) ∧ y = (yn : ℤ) ∧
        old.get x y ≠ b.get x y ∧ c = b.get x y := by
  simp only [diffChanges, List.mem_flatMap, List.mem_range, List.mem_filterMap]
  constructor
  · rintro ⟨yn, hyn, xn, hxn, hsome⟩
    by_cases hne : ¬ old.get (xn : ℤ) (yn : ℤ) = b.get (xn : ℤ) (yn : ℤ)
    · rw [if_pos hne, Option.some_inj, Prod.mk.injEq, Prod.mk.injEq] at hsome
      obtain ⟨hx, hy, hc⟩ := hsome
      subst hx
      subst hy
      exact ⟨xn, yn, hxn, hyn, rfl, rfl, hne, hc.symm⟩
    · rw [if_neg hne] at hsome
      cases hsome
  · rintro ⟨xn, yn, hxn, hyn, rfl, rfl, hne, rfl⟩
    exact ⟨yn, hyn, xn, hxn, by rw [if_pos hne]⟩

/-- Pointwise value after applying a change list: if every entry at `(x,y)`
carries the character `v`, and either some entry hits `(x,y)` or the cell
already holds `v`, the result at `(x,y)` is `v`. -/
theorem applyChgs_eq : ∀ (l : List Chg) (g : ℤ → ℤ → Char) (x y : ℤ) (v : Char),
    (∀ c, (x, y, c) ∈ l → c = v) → ((∃ c, (x, y, c) ∈ l) ∨ g x y = v) →
    applyChgs g l x y = v := by
  intro l
  induction l with
  | nil =>
      intro g x y v _ hd
      rcases hd with ⟨c, hc⟩ | hg
      · cases hc
      · exact hg
  | cons a rest ih =>
      intro g x y v hv hd
      obtain ⟨ax, ay, ac⟩ := a
      rw [applyChgs]
      by_cases hxy : x = ax ∧ y = ay
      · refine ih _ x y v (fun c hc => hv c (List.mem_cons_of_mem _ hc)) (Or.inr ?_)
        rw [if_pos hxy]
        exact hv ac (by rw [hxy.1, hxy.2]; exact List.mem_cons_self _ _)
      · refine ih _ x y v (fun c hc => hv c (List.mem_cons_of_mem _ hc)) ?_
        rcases hd with ⟨c, hc⟩ | hg
        · rcases List.mem_cons.mp hc with hc | hc
          · rw [Prod.mk.injEq, Prod.mk.injEq] at hc
            exact absurd ⟨hc.1, hc.2.1⟩ hxy
          · exact Or.inl ⟨c, hc⟩
        · refine Or.inr ?_
          rw [if_neg hxy]
          exact hg

/-- Replaying the change walk from any `last` state applies exactly the
change list to the screen, provided every change is in range and the walk
state is consistent (the cursor sits one past the remembered cell, or the
remembered row is the impossible `-1`). -/
theorem run_renderChangesAux : ∀ (l : List Chg) (e : Emu) (lx ly : ℤ),
    (∀ x y c, (x, y, c) ∈ l → 0 ≤ x ∧ x < (e.width : ℤ) ∧ 0 ≤ y ∧ y < (e.height : ℤ)) →
    ((e.cx = lx + 1 ∧ e.cy = ly) ∨ ly < 0) →
    (e.run (renderChangesAux l lx ly)).grid = applyChgs e.grid l := by
  intro l
  induction l with
  | nil =>
      intro e lx ly _ _
      rfl
  | cons a rest ih =>
      intro e lx ly hbound hcur
      obtain ⟨ax, ay, ac⟩ := a
      have hbd := hbound ax ay ac (List.mem_cons_self _ _)
      rw [renderChangesAux, applyChgs]
      split
      case isTrue hcont =>
        have hc : e.cx = ax ∧ e.cy = ay := by
          rcases hcur with ⟨h1, h2⟩ | h
          · exact ⟨by rw [h1, ← hcont.2], by rw [h2, hcont.1]⟩
          · exact absurd (hcont.1 ▸ hbd.2.2.1) (by omega)
        have hrun : e.run ([Tok.ch ac] ++ renderChangesAux rest ax ay)
            = (e.writeChar ac).run (renderChangesAux rest ax ay) := rfl
        rw [hrun, ih (e.writeChar ac) ax ay
          (fun x y c hm => by
            have := hbound x y c (List.mem_cons_of_mem _ hm)
            exact this)
          (Or.inl ⟨by rw [show (e.writeChar ac).cx = e.cx + 1 from rfl, hc.1],
            by rw [show (e.writeChar ac).cy = e.cy from rfl, hc.2]⟩)]
        rw [Emu.writeChar_grid_inb e ac (by rw [hc.1, hc.2]; exact hbd), hc.1, hc.2]
      case isFalse hcont =>
        have hrun : e.run ([Tok.pos (ay + 1) (ax + 1), Tok.ch ac] ++ renderChangesAux rest ax ay)
            = ((e.step (Tok.pos (ay + 1) (ax + 1))).writeChar ac).run
                (renderChangesAux rest ax ay) := rfl
        have hcx1 : (e.step (Tok.pos (ay + 1) (ax + 1))).cx = ax := by
          rw [show (e.step (Tok.pos (ay + 1) (ax + 1))).cx = ax + 1 - 1 from rfl]
          ring
        have hcy1 : (e.step (Tok.pos (ay + 1) (ax + 1))).cy = ay := by
          rw [show (e.step (Tok.pos (ay + 1) (ax + 1))).cy = ay + 1 - 1 from rfl]
          ring
        rw [hrun, ih ((e.step (Tok.pos (ay + 1) (ax + 1))).writeChar ac) ax ay
          (fun x y c hm => by
            have := hbound x y c (List.mem_cons_of_mem _ hm)
            exact this)
          (Or.inl ⟨by rw [show ((e.step (Tok.pos (ay + 1) (ax + 1))).writeChar ac).cx
              = (e.step (Tok.pos (ay + 1) (ax + 1))).cx + 1 from rfl, hcx1],
            by rw [show ((e.step (Tok.pos (ay + 1) (ax + 1))).writeChar ac).cy
              = (e.step (Tok.pos (ay + 1) (ax + 1))).cy from rfl, hcy1]⟩)]
        rw [Emu.writeChar_grid_inb _ ac (by rw [hcx1, hcy1]; exact hbd), hcx1, hcy1]
        rfl

/-- Replaying a diff render on a screen that matches `old` leaves every
in-range cell equal to the new buffer. -/
theorem run_renderChanges (old b : Buffer) (e : Emu)
    (hw : e.width = b.width) (hh : e.height = b.height)
    (hgrid : ∀ x y : ℤ, 0 ≤ x → x < (b.width : ℤ) → 0 ≤ y → y < (b.height : ℤ) →
      e.grid x y = old.get x y) :
    ∀ x y : ℤ, 0 ≤ x → x < (b.width : ℤ) → 0 ≤ y → y < (b.height : ℤ) →
      (e.run (renderChanges (diffChanges old b))).grid x y = b.get x y := by
  have hb : ∀ x y c, (x, y, c) ∈ sortChgs (diffChanges old b) →
      0 ≤ x ∧ x < (e.width : ℤ) ∧ 0 ≤ y ∧ y < (e.height : ℤ) := by
    intro x y c hm
    rw [mem_sortChgs, mem_diffChanges] at hm
    obtain ⟨xn, yn, hxn, hyn, rfl, rfl, _, _⟩ := hm
    rw [hw, hh]
    exact ⟨Int.natCast_nonneg xn, by exact_mod_cast hxn,
      Int.natCast_nonneg yn, by exact_mod_cast hyn⟩
  intro x y hx0 hxw hy0 hyh
  rw [renderChanges,
    run_renderChangesAux (sortChgs (diffChanges old b)) e (-1) (-1) hb (Or.inr (by norm_num))]
  apply applyChgs_eq
  · intro c hc
    rw [mem_sortChgs, mem_diffChanges] at hc
    obtain ⟨xn, yn, _, _, _, _, _, hcv⟩ := hc
    exact hcv
  · by_cases hne : old.get x y = b.get x y
    · exact Or.inr (by rw [hgrid x y hx0 hxw hy0 hyh, hne])
    · refine Or.inl ⟨b.get x y, ?_⟩
      rw [mem_sortChgs, mem_diffChanges]
      refine ⟨x.toNat, y.toNat, by omega, by omega,
        (Int.toNat_of_nonneg hx0).symm, (Int.toNat_of_nonneg hy0).symm, hne, rfl⟩

/-- Lemma: `copy_from` between same-size buffers keeps the dimensions and copies
every in-range cell. -/
theorem copyFrom_get (lb b : Buffer) (hw : lb.width = b.width) (hh : lb.height = b.height) :
    (lb.copyFrom b).width = lb.width ∧ (lb.copyFrom b).height = lb.height ∧
    ∀ x y : ℤ, 0 ≤ x → x < (b.width : ℤ) → 0 ≤ y → y < (b.height : ℤ) →
      (lb.copyFrom b).get x y = b.get x y := by
  refine ⟨rfl, rfl, ?_⟩
  intro x y hx0 hxw hy0 hyh
  simp only [Buffer.copyFrom, Buffer.get, hw, hh, min_self]
  rw [if_pos ⟨hx0, hxw, hy0, hyh⟩, if_pos ⟨hx0, hxw, hy0, hyh⟩, if_pos ⟨hx0, hxw, hy0, hyh⟩]

/-- One render/replay step: from a fresh renderer or a synchronised one,
the replayed screen shows the rendered buffer and the new renderer state is
synchronised with the new screen. -/
theorem render_step_sync (r : DiffRenderer) (b : Buffer) (e : Emu)
    (hw : b.width = e.width) (hh : b.height = e.height)
    (h : r = DiffRenderer.init ∨ RendererSync r e) :
    (∀ x y : ℤ, 0 ≤ x → x < (e.width : ℤ) → 0 ≤ y → y < (e.height : ℤ) →
      (e.run (r.render b).1).grid x y = b.get x y) ∧
    RendererSync (r.render b).2 (e.run (r.render b).1) := by
  rcases h with rfl | ⟨hff, lb, hlb, hlw, hlh, hsync⟩
  · have hout : DiffRenderer.init.render b
        = (Tok.home :: b.renderToks,
           ⟨some ((Buffer.make b.width b.height [' ']).copyFrom b), false⟩) := rfl
    have hcf := copyFrom_get (Buffer.make b.width b.height [' ']) b rfl rfl
    have hdims := Emu.run_dims (Tok.home :: b.renderToks) e
    have hgrid : ∀ x y : ℤ, 0 ≤ x → x < (e.width : ℤ) → 0 ≤ y → y < (e.height : ℤ) →
        (e.run (Tok.home :: b.renderToks)).grid x y = b.get x y := by
      intro x y hx0 hxw hy0 hyh
      rw [← hw] at hxw
      rw [← hh] at hyh
      rw [Buffer.get, if_pos ⟨hx0, hxw, hy0, hyh⟩]
      exact run_full_render b e hw.symm hh.symm x y hx0 hxw hy0 hyh
    constructor
    · rw [hout]
      exact hgrid
    · rw [hout]
      refine ⟨rfl, (Buffer.make b.width b.height [' ']).copyFrom b, rfl, ?_, ?_, ?_⟩
      · rw [hcf.1, hdims.1]
        exact hw.symm ▸ rfl
      · rw [hcf.2.1, hdims.2]
        exact hh.symm ▸ rfl
      · intro x y hx0 hxw hy0 hyh
        rw [hdims.1] at hxw
        rw [hdims.2] at hyh
        rw [hcf.2.2 x y hx0 (by rw [hw]; exact hxw) hy0 (by rw [hh]; exact hyh)]
        exact hgrid x y hx0 hxw hy0 hyh
  · have hout : r.render b
        = (renderChanges (diffChanges lb b), ⟨some (lb.copyFrom b), false⟩) := by
      simp [DiffRenderer.render, hff, hlb]
    have hlwb : lb.width = b.width := by rw [hlw, hw]
    have hlhb : lb.height = b.height := by rw [hlh, hh]
    have hcf := copyFrom_get lb b hlwb hlhb
    have hdims := Emu.run_dims (renderChanges (diffChanges lb b)) e
    have hgrid : ∀ x y : ℤ, 0 ≤ x → x < (e.width : ℤ) → 0 ≤ y → y < (e.height : ℤ) →
        (e.run (renderChanges (diffChanges lb b))).grid x y = b.get x y := by
      intro x y hx0 hxw hy0 hyh
      rw [← hw] at hxw
      rw [← hh] at hyh
      refine run_renderChanges lb b e hw.symm hh.symm ?_ x y hx0 hxw hy0 hyh
      intro x2 y2 hx2 hxw2 hy2 hyh2
      exact hsync x2 y2 hx2 (by rw [← hw]; exact hxw2) hy2 (by rw [← hh]; exact hyh2)
    constructor
    · rw [hout]
      exact hgrid
    · rw [hout]
      refine ⟨rfl, lb.copyFrom b, rfl, ?_, ?_, ?_⟩
      · rw [hcf.1, hdims.1, hlw]
      · rw [hcf.2.1, hdims.2, hlh]
      · intro x y hx0 hxw hy0 hyh
        rw [hdims.1] at hxw
        rw [hdims.2] at hyh
        rw [hcf.2.2 x y hx0 (by rw [hw]; exact hxw) hy0 (by rw [hh]; exact hyh)]
        exact hgrid x y hx0 hxw hy0 hyh

/-- Rendering a non-empty buffer sequence from a fresh or synchronised
renderer and replaying everything shows the last buffer and stays
synchronised. -/
theorem renderAll_sync : ∀ (rest : List Buffer) (b : Buffer) (r : DiffRenderer) (e : Emu),
    (r = DiffRenderer.init ∨ RendererSync r e) →
    b.width = e.width → b.height = e.height →
    (∀ b2 ∈ rest, b2.width = e.width ∧ b2.height = e.height) →
    (∀ x y : ℤ, 0 ≤ x → x < (e.width : ℤ) → 0 ≤ y → y < (e.height : ℤ) →
      (e.run (renderAll r (b :: rest)).1).grid x y = (rest.getLastD b).get x y) ∧
    RendererSync (renderAll r (b :: rest)).2 (e.run (renderAll r (b :: rest)).1) := by
  intro rest
  induction rest with
  | nil =>
      intro b r e h hw hh _
      have hstep := render_step_sync r b e hw hh h
      have hra : renderAll r [b] = ((r.render b).1 ++ [], (r.render b).2) := rfl
      rw [hra]
      simp only [List.append_nil, List.getLastD]
      exact hstep
  | cons b2 rest2 ih =>
      intro b r e h hw hh hdims
      have hstep := render_step_sync r b e hw hh h
      have hra : renderAll r (b :: b2 :: rest2)
          = ((r.render b).1 ++ (renderAll (r.render b).2 (b2 :: rest2)).1,
             (renderAll (r.render b).2 (b2 :: rest2)).2) := rfl
      rw [hra]
      simp only [Emu.run_append]
      have hd1 := Emu.run_dims (r.render b).1 e
      have hih := ih b2 (r.render b).2 (e.run (r.render b).1) (Or.inr hstep.2)
        (by rw [hd1.1]; exact (hdims b2 (List.mem_cons_self _ _)).1)
        (by rw [hd1.2]; exact (hdims b2 (List.mem_cons_self _ _)).2)
        (fun b3 hb3 => ⟨by rw [hd1.1]; exact (hdims b3 (List.mem_cons_of_mem _ hb3)).1,
          by rw [hd1.2]; exact (hdims b3 (List.mem_cons_of_mem _ hb3)).2⟩)
      refine ⟨?_, hih.2⟩
      intro x y hx0 hxw hy0 hyh
      rw [List.getLastD_cons]
      exact hih.1 x y hx0 (by rw [hd1.1]; exact hxw) hy0 (by rw [hd1.2]; exact hyh)

/-- C1: starting from a fresh `DiffRenderer`, render any non-empty sequence
of equal-size buffers and replay the concatenation of the emitted outputs
on the naive emulator (cursor-home, 1-indexed cursor-position escapes,
newlines, plain characters): every in-range cell of the resulting screen
equals the corresponding cell of the last buffer
(`rest.getLastD b` is the last element of `b :: rest`). -/
theorem diff_renderer_replay_reconstructs (b : Buffer) (rest : List Buffer) (e : Emu)
    (hdims : ∀ b2 ∈ b :: rest, b2.width = e.width ∧ b2.height = e.height) :
    ∀ x y : ℤ, 0 ≤ x → x < (e.width : ℤ) → 0 ≤ y → y < (e.height : ℤ) →
      (e.run (renderAll DiffRenderer.init (b :: rest)).1).grid x y
        = (rest.getLastD b).get x y :=
  (renderAll_sync rest b DiffRenderer.init e (Or.inl rfl)
    (hdims b (List.mem_cons_self _ _)).1 (hdims b (List.mem_cons_self _ _)).2
    (fun b2 hb2 => hdims b2 (List.mem_cons_of_mem _ hb2))).1

/-- Witness for C1: rendering `bc` then `bd` on a 2×1 screen (a full render
followed by a one-cell diff) and replaying both outputs shows `bd`'s cell
`d` at position (1,0). -/
theorem diff_renderer_replay_reconstructs_witness :
    (∀ b2 ∈ [bufBC, bufBD], b2.width = emuZ.width ∧ b2.height = emuZ.height) ∧
    (emuZ.run (renderAll DiffRenderer.init [bufBC, bufBD]).1).grid 1 0
      = ([bufBD].getLastD bufBC).get 1 0 ∧
    ([bufBD].getLastD bufBC).get 1 0 = 'd' :=
  ⟨by decide,
   diff_renderer_replay_reconstructs bufBC [bufBD] emuZ (by decide) 1 0
     (by decide) (by decide) (by decide) (by decide),
   by decide⟩

end Glyphwork
